import Mathlib

/-!
Verification of the topology and diagnostic engine of the fiber repository
(`src/Beta_05/src/model/network_model.py`), as a shallow embedding in Lean.

Node identifiers are strings in the source (Python is duck-typed, so the graph
functions are generic); the embedding keeps the graph layer generic over a
decidable-equality node type and instantiates it at `String` for the model and
at `Nat` for synthetic graphs.  Python dicts are embedded as association lists
with unique keys; `time.time()` is an explicit natural-number parameter;
machine integers do not occur (all counts are small naturals).
-/

namespace FiberModel

/-- Association-list lookup, embedding Python `dict.get` (first match; the
lists used as dicts have unique keys). -/
def alookup {α β : Type} [DecidableEq α] : List (α × β) → α → Option β
  | [], _ => none
  | (k, v) :: rest, a => if k = a then some v else alookup rest a

/-- Association-list update of an existing key in place, embedding Python
`d[k] = v` for a key already present (position preserved). -/
def aupdate {α β : Type} [DecidableEq α] : List (α × β) → α → β → List (α × β)
  | [], _, _ => []
  | (k, v) :: rest, a, b => if k = a then (a, b) :: rest else (k, v) :: aupdate rest a b

/-- Python `dict` insertion semantics: update in place if the key exists,
otherwise append at the end (dicts preserve insertion order). -/
def dinsert {α β : Type} [DecidableEq α] : List (α × β) → α → β → List (α × β)
  | [], a, b => [(a, b)]
  | (k, v) :: rest, a, b => if k = a then (a, b) :: rest else (k, v) :: dinsert rest a b

/-- Insert into a ≤-sorted list of naturals. -/
def insertSorted (n : Nat) : List Nat → List Nat
  | [] => [n]
  | m :: rest => if n ≤ m then n :: m :: rest else m :: insertSorted n rest

/-- Embedding of Python `sorted` on a list of naturals (ascending). -/
def sortNats : List Nat → List Nat
  | [] => []
  | n :: rest => insertSorted n (sortNats rest)

/-- Role tag carried by a directed logical edge (`type=` attribute in the
source: `ida`, `vuelta` or `set_patch`). -/
inductive EdgeType : Type
  | ida : EdgeType
  | vuelta : EdgeType
  | set_patch : EdgeType
deriving DecidableEq, Repr

/-- A directed graph as networkx builds it: node list in insertion order, and
an ordered adjacency list per node (successor iteration order = edge insertion
order).  `broken` models nodes whose successor lookup raises in the host
(a corrupted adjacency, the except-branch at network_model.py lines 61-63);
graphs produced by the builder have `broken = []`. -/
structure DiGraph (α : Type) : Type where
  nodes : List α
  adj : List (α × List (α × EdgeType))
  broken : List α
deriving Repr

/-- Embedding of `graph.successors(node)`: raises (models as `Except.error`)
for a corrupted node, else yields the adjacency-order successor list. -/
def successorsE {α : Type} [DecidableEq α] (g : DiGraph α) (n : α) :
    Except Unit (List α) :=
  if n ∈ g.broken then Except.error () else
    Except.ok (((alookup g.adj n).getD []).map Prod.fst)

/-- Successor list ignoring corruption; used to state reachability. -/
def succList {α : Type} [DecidableEq α] (g : DiGraph α) (n : α) : List α :=
  ((alookup g.adj n).getD []).map Prod.fst

/-- Embedding of `DG.has_node(n)`. -/
def hasNode {α : Type} [DecidableEq α] (g : DiGraph α) (n : α) : Bool :=
  decide (n ∈ g.nodes)

/-- Edge lookup: the type tag of the directed edge `u → v`, if present. -/
def edgeData {α : Type} [DecidableEq α] (g : DiGraph α) (u v : α) :
    Option EdgeType :=
  alookup ((alookup g.adj u).getD []) v

/-- Insert `(v, ty)` into one ordered successor list, networkx style: an
existing edge keeps its position and gets its attribute overwritten, a new
edge is appended. -/
def upsertSucc {α : Type} [DecidableEq α] : List (α × EdgeType) → α → EdgeType →
    List (α × EdgeType)
  | [], v, ty => [(v, ty)]
  | (w, t) :: rest, v, ty =>
      if w = v then (v, ty) :: rest else (w, t) :: upsertSucc rest v ty

/-- Insert an edge into the adjacency structure. -/
def adjInsert {α : Type} [DecidableEq α] :
    List (α × List (α × EdgeType)) → α → α → EdgeType →
    List (α × List (α × EdgeType))
  | [], u, v, ty => [(u, [(v, ty)])]
  | (w, l) :: rest, u, v, ty =>
      if w = u then (w, upsertSucc l v ty) :: rest
      else (w, l) :: adjInsert rest u v ty

/-- Append a node if absent (networkx registers endpoints of a new edge). -/
def addNodeIfAbsent {α : Type} [DecidableEq α] (ns : List α) (n : α) : List α :=
  if n ∈ ns then ns else ns ++ [n]

/-- Embedding of `DG.add_edge(u, v, type=ty)`. -/
def addEdge {α : Type} [DecidableEq α] (g : DiGraph α) (u v : α) (ty : EdgeType) :
    DiGraph α :=
  { nodes := addNodeIfAbsent (addNodeIfAbsent g.nodes u) v
    adj := adjInsert g.adj u v ty
    broken := g.broken }

/-- All targets occurring in the adjacency structure; every node the search
can ever push is in this list. -/
def candidates {α : Type} (g : DiGraph α) : List α :=
  (g.adj.map (fun p => p.2.map Prod.fst)).flatten

/-- The inner neighbor loop of `_has_path_limited_iterative` (lines 57-60):
each unvisited neighbor is marked visited and pushed; processing the neighbor
list left to right while consing onto `acc` yields exactly the Python stack
top order (last appended = first popped). -/
def pushAll {α : Type} [DecidableEq α] (depth : Nat) :
    List α → List α → List (α × Nat) → List α × List (α × Nat)
  | [], visited, acc => (visited, acc)
  | n :: ns, visited, acc =>
      if n ∈ visited then pushAll depth ns visited acc
      else pushAll depth ns (n :: visited) ((n, depth + 1) :: acc)

/-- The while-loop of `_has_path_limited_iterative`, fuel-indexed: one unit of
fuel per pop.  `none` means the fuel ran out (never happens for the fuel bound
`pathFuel`, see `hasPathRun_terminates`).  A successor-lookup failure makes
the whole search return `false` (the except-branch, lines 61-63). -/
def hasPathRun {α : Type} [DecidableEq α] (g : DiGraph α) (target : α)
    (maxDepth : Nat) : Nat → List α → List (α × Nat) → Option Bool
  | 0, _, _ => none
  | _ + 1, _, [] => some false
  | fuel + 1, visited, (node, depth) :: stack =>
      if node = target then some true
      else if maxDepth ≤ depth then hasPathRun g target maxDepth fuel visited stack
      else
        match successorsE g node with
        | Except.error _ => some false
        | Except.ok neighbors =>
            let vs := pushAll depth neighbors visited []
            hasPathRun g target maxDepth fuel vs.1 (vs.2 ++ stack)

/-- Fuel sufficient for the search to finish: one pop for the initial entry,
one for the empty-stack exit, and at most one push (hence pop) per occurrence
in the adjacency lists. -/
def pathFuel {α : Type} (g : DiGraph α) : Nat :=
  2 * (candidates g).length + 2

/-- Embedding of `_has_path_limited_iterative(graph, source, target,
max_depth)` (network_model.py lines 43-64). -/
def has_path_limited_iterative {α : Type} [DecidableEq α] (g : DiGraph α)
    (source target : α) (maxDepth : Nat) : Bool :=
  if source = target then true
  else (hasPathRun g target maxDepth (pathFuel g) [source] [(source, 0)]).getD false

/-- The set of nodes reachable from `a` by a directed path of at most `k`
edges (specification-side notion used to state the depth-bound claims). -/
def reachSet {α : Type} [DecidableEq α] (g : DiGraph α) (a : α) : Nat → List α
  | 0 => [a]
  | k + 1 =>
      let r := reachSet g a k
      (r ++ r.foldr (fun n acc => succList g n ++ acc) []).dedup

/-- Per-plant configuration as returned by `get_plant_config`: circuit chains,
ring order, and the strand-role index lists. -/
structure PlantConfig : Type where
  circuitos : List (String × List String)
  ringOrder : List String
  fibrasIda : List Nat
  fibrasVuelta : List Nat
  fibrasReserva : List Nat
  fibrasCctv : List Nat
deriving Repr

/-- A node of the physical graph: identity plus its `type` attribute
(`set` or `ct` in the source). -/
structure PNode : Type where
  id : String
  ntype : String
deriving DecidableEq, Repr

/-- An undirected physical edge of `self.G` with its data dict: optional
stored segment id (`data.get` with key id), optional circuit tag, and the strand
map (`data.get` with key fibers; `none` embeds a missing or non-dict value). -/
structure Edge : Type where
  u : String
  v : String
  segId : Option String
  circuit : Option String
  fibers : Option (List (String × String))
deriving DecidableEq, Repr

/-- The physical graph `self.G`: nodes with their attributes and the edge
list in insertion order. -/
structure PhysGraph : Type where
  nodes : List PNode
  edges : List Edge
deriving Repr

/-- The mutable model state: physical graph plus the logical-graph cache
fields (`_DG_cache`, `_cache_valid`, `_last_cache_time`). -/
structure ModelState : Type where
  phys : PhysGraph
  cacheValid : Bool
  cache : Option (DiGraph String)
  lastCacheTime : Nat

/-- `DEFAULT_TOTAL_FIBRAS` (constants.py). -/
def DEFAULT_TOTAL_FIBRAS : Nat := 16

/-- Embedding of `_get_initial_fiber_status`: all strand indices 1..16
mapped to `ok`. -/
def initialFiberStatus : List (String × String) :=
  (List.range DEFAULT_TOTAL_FIBRAS).map (fun i => (toString (i + 1), "ok"))

/-- Embedding of `_check_segment_path_direction(fibers_status,
direction_fibers)` (lines 240-249): true when some index of the direction
list is stored with state `ok`. -/
def check_segment_path_direction (fibersStatus : List (String × String))
    (directionFibers : List Nat) : Bool :=
  if fibersStatus = [] then false
  else directionFibers.any (fun fn => alookup fibersStatus (toString fn) == some "ok")

/-- The ida/vuelta edge-derivation pass of `_build_directed_logical_graph_py`
(lines 219-235): nodes seeded from the physical graph, then per physical
edge a forward edge if some ida strand is ok and a backward edge if some
vuelta strand is ok. -/
def buildPreRing (cfg : PlantConfig) (P : PhysGraph) : DiGraph String :=
  let DG0 : DiGraph String := ⟨P.nodes.map PNode.id, [], []⟩
  P.edges.foldl (fun DG e =>
    let fib := e.fibers.getD []
    let DG1 := if check_segment_path_direction fib cfg.fibrasIda
               then addEdge DG e.u e.v EdgeType.ida else DG
    if check_segment_path_direction fib cfg.fibrasVuelta
    then addEdge DG1 e.v e.u EdgeType.vuelta else DG1) DG0

/-- Circuit name at position `i` of the ring order. -/
def ringCircA (cfg : PlantConfig) (i : Nat) : String :=
  cfg.ringOrder.getD i ""

/-- Circuit name at the wrapped next position of the ring order. -/
def ringCircB (cfg : PlantConfig) (i : Nat) : String :=
  cfg.ringOrder.getD ((i + 1) % cfg.ringOrder.length) ""

/-- CT list of the circuit at position `i` (`circuitos.get(..., [])`). -/
def ringCtsA (cfg : PlantConfig) (i : Nat) : List String :=
  (alookup cfg.circuitos (ringCircA cfg i)).getD []

/-- CT list of the wrapped next circuit. -/
def ringCtsB (cfg : PlantConfig) (i : Nat) : List String :=
  (alookup cfg.circuitos (ringCircB cfg i)).getD []

/-- Last CT of the circuit at position `i` (`cts_actual[-1]`). -/
def ringLast (cfg : PlantConfig) (i : Nat) : String :=
  (ringCtsA cfg i).getLast?.getD ""

/-- First CT of the wrapped next circuit (`cts_siguiente[0]`). -/
def ringFirst (cfg : PlantConfig) (i : Nat) : String :=
  (ringCtsB cfg i).head?.getD ""

/-- One iteration of the loop of `_add_ring_connections_py` (lines 259-281):
skip if either CT list is empty, else add a `set_patch` edge from the last
node of the circuit to the first node of the next exactly when the three
node-existence checks pass and no bounded-depth path already exists. -/
def ringStep (cfg : PlantConfig) (DG : DiGraph String) (i : Nat) :
    DiGraph String :=
  let ctsA := ringCtsA cfg i
  let ctsB := ringCtsB cfg i
  if ctsA = [] ∨ ctsB = [] then DG
  else
    let nf := ringLast cfg i
    let ni := ringFirst cfg i
    let pathExists := has_path_limited_iterative DG nf ni 30
    if hasNode DG nf && hasNode DG "SET" && hasNode DG ni && !pathExists
    then addEdge DG nf ni EdgeType.set_patch else DG

/-- Embedding of `_add_ring_connections_py(DG)` (lines 251-282). -/
def add_ring_connections (cfg : PlantConfig) (DG : DiGraph String) :
    DiGraph String :=
  if cfg.ringOrder = [] then DG
  else (List.range cfg.ringOrder.length).foldl (ringStep cfg) DG

/-- Embedding of `_build_directed_logical_graph_py` (lines 217-238). -/
def build_directed_logical_graph (cfg : PlantConfig) (P : PhysGraph) :
    DiGraph String :=
  add_ring_connections cfg (buildPreRing cfg P)

/-- Connectivity status of one CT, as the Python string results
`conectado` / `aislado` / `error`. -/
inductive CtStatus : Type
  | conectado : CtStatus
  | aislado : CtStatus
  | error : CtStatus
deriving DecidableEq, Repr

/-- Embedding of `check_ct_connectivity(target_ct)` (lines 284-312), with the
logical graph `DG` (the value `self.get_logical_graph()` returns, so claims
can quantify over cache contents) passed explicitly.  The except-branches
around the traversal calls are dead in the embedding because
`has_path_limited_iterative` catches the successor-lookup failure itself and
returns `false`. -/
def check_ct_connectivity_with (P : PhysGraph) (DG : DiGraph String)
    (target : String) : CtStatus :=
  if target = "SET" then CtStatus.conectado
  else if !(decide (target ∈ P.nodes.map PNode.id)) then CtStatus.error
  else if !(hasNode DG "SET") || !(hasNode DG target) then CtStatus.aislado
  else if has_path_limited_iterative DG "SET" target 30 &&
          has_path_limited_iterative DG target "SET" 30
  then CtStatus.conectado else CtStatus.aislado

/-- The sorted list of CT-typed node ids (`all_cts` in `get_network_status`,
line 355). -/
def allCts (P : PhysGraph) : List String :=
  ((P.nodes.filter (fun n => n.ntype == "ct")).map PNode.id).mergeSort
    (fun a b => !(decide (b < a)))

/-- The `ct_connectivity` part of `get_network_status` (lines 365-371): one
status entry per CT, each computed independently. -/
def networkStatusCts (P : PhysGraph) (DG : DiGraph String) :
    List (String × CtStatus) :=
  (allCts P).map (fun ct => (ct, check_ct_connectivity_with P DG ct))

/-- Dict key `f"{circuit_actual}-{circuit_siguiente}"` for ring pair `i`. -/
def ringKey (cfg : PlantConfig) (i : Nat) : String :=
  ringCircA cfg i ++ "-" ++ ringCircB cfg i

/-- The recorded boolean for ring pair `i` of `_check_ring_integrity`
(lines 322-343). -/
def ringValue (cfg : PlantConfig) (DG : DiGraph String) (i : Nat) : Bool :=
  if ringCtsA cfg i = [] ∨ ringCtsB cfg i = [] then false
  else if ringLast cfg i = ringFirst cfg i then false
  else if hasNode DG (ringLast cfg i) && hasNode DG (ringFirst cfg i)
  then has_path_limited_iterative DG (ringLast cfg i) (ringFirst cfg i) 30
  else false

/-- Embedding of `_check_ring_integrity` (lines 314-347): a results dict
(insertion-ordered, overwriting on key collision) with one store per ring
position. -/
def check_ring_integrity (cfg : PlantConfig) (DG : DiGraph String) :
    List (String × Bool) :=
  (List.range cfg.ringOrder.length).foldl
    (fun results i => dinsert results (ringKey cfg i) (ringValue cfg DG i)) []

/-- One appended line of the per-segment block of
`get_reconnection_suggestions` (lines 542-576), with the structured data that
the formatted string carries: the faulty-strand lists, the proposed reserve
lists, and the insufficiency reports (available, needed). -/
inductive Sug : Type
  | idaFault : List Nat → Sug
  | idaUse : List Nat → Sug
  | idaInsuf : Nat → Nat → Sug
  | vueltaFault : List Nat → Sug
  | vueltaUse : List Nat → Sug
  | vueltaInsuf : Nat → Nat → Sug
  | cctvFault : List Nat → Sug
  | cctvUse : List Nat → Sug
deriving DecidableEq, Repr

/-- The per-segment reserve-allocation block of `get_reconnection_suggestions`
(lines 528-576), for one segment with strand map `fibers`.  The reserve pool
`reservas_ok` is the ascending-sorted list of reserve indices stored `ok`;
the ida branch consumes its proposal from the pool (line 555), the vuelta
branch proposes from the remaining pool but does not consume (lines 563-565),
and the CCTV branch proposes from that same remaining pool (lines 570-574). -/
def segment_reserve_suggestions (cfg : PlantConfig)
    (fibers : List (String × String)) : List Sug :=
  let averiadasIda := cfg.fibrasIda.filter
    (fun fn => alookup fibers (toString fn) == some "averiado")
  let averiadasVuelta := cfg.fibrasVuelta.filter
    (fun fn => alookup fibers (toString fn) == some "averiado")
  let reservasOk := sortNats (cfg.fibrasReserva.filter
    (fun fn => alookup fibers (toString fn) == some "ok"))
  let cctvAveriadas := cfg.fibrasCctv.filter
    (fun fn => alookup fibers (toString fn) == some "averiado")
  if averiadasIda = [] ∧ averiadasVuelta = [] then []
  else
    let idaPart :=
      if averiadasIda = [] then ([], reservasOk)
      else
        let needed := averiadasIda.length
        if needed ≤ reservasOk.length then
          ([Sug.idaFault averiadasIda, Sug.idaUse (reservasOk.take needed)],
           reservasOk.drop needed)
        else
          ([Sug.idaFault averiadasIda, Sug.idaInsuf reservasOk.length needed],
           reservasOk)
    let pool1 := idaPart.2
    let vueltaPart :=
      if averiadasVuelta = [] then []
      else
        let needed := averiadasVuelta.length
        if needed ≤ pool1.length then
          [Sug.vueltaFault averiadasVuelta, Sug.vueltaUse (pool1.take needed)]
        else
          [Sug.vueltaFault averiadasVuelta, Sug.vueltaInsuf pool1.length needed]
    let cctvPart :=
      if cctvAveriadas = [] then []
      else if cctvAveriadas.length ≤ pool1.length then
        [Sug.cctvFault cctvAveriadas, Sug.cctvUse (pool1.take cctvAveriadas.length)]
      else
        [Sug.cctvFault cctvAveriadas]
    idaPart.1 ++ vueltaPart ++ cctvPart

/-- Total number of reserve strands proposed for reassignment in a
per-segment suggestion block. -/
def proposedCount : List Sug → Nat
  | [] => 0
  | Sug.idaUse l :: rest => l.length + proposedCount rest
  | Sug.vueltaUse l :: rest => l.length + proposedCount rest
  | Sug.cctvUse l :: rest => l.length + proposedCount rest
  | _ :: rest => proposedCount rest

/-- Embedding of the segment-match test of `update_fiber_status` and
`restore_segment_fibers` (lines 462-467): stored id, or either endpoint
orientation. -/
def segMatch (e : Edge) (sid : String) : Bool :=
  e.segId == some sid || (e.u ++ "-" ++ e.v) == sid || (e.v ++ "-" ++ e.u) == sid

/-- Outcome of the edge loop of `update_fiber_status`, carrying the edge list
after the (in-place, in Python) mutation. -/
inductive FiberUpd : Type
  | noSegment : FiberUpd
  | fiberNotFound : List Edge → FiberUpd
  | changed : List Edge → String → FiberUpd
  | unchanged : List Edge → FiberUpd
deriving DecidableEq, Repr

/-- The edge loop of `update_fiber_status` (lines 462-490): first matching
segment only; a missing or non-dict strand map is first replaced by the
initial all-ok map; then the strand key is looked up and updated when its
stored state differs. -/
def updateEdgesLoop (sid fiberKey newStatus : String) : List Edge → FiberUpd
  | [] => FiberUpd.noSegment
  | e :: rest =>
      if segMatch e sid then
        let fb := e.fibers.getD initialFiberStatus
        match alookup fb fiberKey with
        | none => FiberUpd.fiberNotFound ({ e with fibers := some fb } :: rest)
        | some old =>
            if old ≠ newStatus then
              FiberUpd.changed
                ({ e with fibers := some (aupdate fb fiberKey newStatus) } :: rest)
                old
            else FiberUpd.unchanged ({ e with fibers := some fb } :: rest)
      else
        match updateEdgesLoop sid fiberKey newStatus rest with
        | FiberUpd.noSegment => FiberUpd.noSegment
        | FiberUpd.fiberNotFound es => FiberUpd.fiberNotFound (e :: es)
        | FiberUpd.changed es old => FiberUpd.changed (e :: es) old
        | FiberUpd.unchanged es => FiberUpd.unchanged (e :: es)

/-- Embedding of `update_fiber_status(segment_id, fiber_num, new_status)`
(lines 453-491), returning the new state and the `(bool, message)` pair.
The returned boolean is `segment_found`, except for the early
`return False` when the strand key is absent; the cache is invalidated only
on an actual state change. -/
def update_fiber_status (s : ModelState) (segmentId : String) (fiberNum : Nat)
    (newStatus : String) : ModelState × Bool × String :=
  if newStatus ≠ "ok" ∧ newStatus ≠ "averiado" then
    (s, false, "Estado " ++ newStatus ++ " no es valido")
  else
    let key := toString fiberNum
    match updateEdgesLoop segmentId key newStatus s.phys.edges with
    | FiberUpd.noSegment =>
        (s, false, "Segmento " ++ segmentId ++ " no encontrado")
    | FiberUpd.fiberNotFound es =>
        ({ s with phys := { s.phys with edges := es } }, false,
         "Error: Fibra " ++ key ++ " no encontrada en el segmento " ++ segmentId)
    | FiberUpd.changed es _ =>
        ({ phys := { s.phys with edges := es }, cacheValid := false,
           cache := none, lastCacheTime := s.lastCacheTime }, true,
         "Fibra " ++ key ++ " en segmento " ++ segmentId ++ " actualizada a "
           ++ newStatus)
    | FiberUpd.unchanged es =>
        ({ s with phys := { s.phys with edges := es } }, true,
         "Fibra " ++ key ++ " en " ++ segmentId ++ " ya estaba en estado "
           ++ newStatus)

/-- The strand-restoration loop body of `restore_segment_fibers` (lines
673-677): each `averiado` value becomes `ok` and is counted; every other
stored value is left untouched. -/
def restoreFibersList : List (String × String) → List (String × String) × Nat
  | [] => ([], 0)
  | (k, v) :: rest =>
      let r := restoreFibersList rest
      if v = "averiado" then ((k, "ok") :: r.1, r.2 + 1)
      else ((k, v) :: r.1, r.2)

/-- The edge loop of `restore_segment_fibers` (lines 658-685): first matching
segment only; a missing or non-dict strand map is replaced by the initial
all-ok map with `DEFAULT_TOTAL_FIBRAS` counted as changed.  Returns `none`
when no segment matches. -/
def restoreEdgesLoop (sid : String) : List Edge → Option (List Edge × Nat)
  | [] => none
  | e :: rest =>
      if segMatch e sid then
        match e.fibers with
        | none =>
            some ({ e with fibers := some initialFiberStatus } :: rest,
                  DEFAULT_TOTAL_FIBRAS)
        | some fb =>
            let r := restoreFibersList fb
            some ({ e with fibers := some r.1 } :: rest, r.2)
      else
        match restoreEdgesLoop sid rest with
        | none => none
        | some (es, n) => some (e :: es, n)

/-- Embedding of `restore_segment_fibers(segment_id)` (lines 651-687): cache
invalidated only when the changed count is positive. -/
def restore_segment_fibers (s : ModelState) (segmentId : String) :
    ModelState × Bool × String :=
  match restoreEdgesLoop segmentId s.phys.edges with
  | none => (s, false, "Segmento " ++ segmentId ++ " no encontrado")
  | some (es, n) =>
      let s1 := if n > 0 then
          ({ phys := { s.phys with edges := es }, cacheValid := false,
             cache := none, lastCacheTime := s.lastCacheTime } : ModelState)
        else { s with phys := { s.phys with edges := es } }
      (s1, true, toString n ++ " fibras restauradas en segmento " ++ segmentId)

/-- `CACHE_EXPIRATION_TIME` (network_model.py line 23). -/
def CACHE_EXPIRATION_TIME : Nat := 10

/-- Embedding of `get_logical_graph` (lines 204-215) with `time.time()` as
the explicit `now` parameter: rebuild when the cache is invalid, absent, or
older than the staleness window, else return the cached graph unchanged. -/
def get_logical_graph (cfg : PlantConfig) (s : ModelState) (now : Nat) :
    DiGraph String × ModelState :=
  match s.cache with
  | some g =>
      if s.cacheValid && !(decide (now - s.lastCacheTime > CACHE_EXPIRATION_TIME))
      then (g, s)
      else
        let DG := build_directed_logical_graph cfg s.phys
        (DG, { s with cache := some DG, cacheValid := true, lastCacheTime := now })
  | none =>
      let DG := build_directed_logical_graph cfg s.phys
      (DG, { s with cache := some DG, cacheValid := true, lastCacheTime := now })

/-- The ok-counting read of `get_fiber_statistics` (lines 638-640): how many
indices of a role range are stored with state `ok`. -/
def countOk (fibers : List (String × String)) (range : List Nat) : Nat :=
  (range.filter (fun fn => alookup fibers (toString fn) == some "ok")).length

/-- Fiber statistics record returned by `get_fiber_statistics`. -/
structure FiberStats : Type where
  commOk : Nat
  commTotal : Nat
  reserveOk : Nat
  reserveTotal : Nat
  cctvOk : Nat
  cctvTotal : Nat
deriving DecidableEq, Repr

/-- Embedding of `get_fiber_statistics(segments)` (lines 602-649), with each
segment represented by its strand map. -/
def get_fiber_statistics (cfg : PlantConfig)
    (segments : List (List (String × String))) : FiberStats :=
  if segments = [] then ⟨0, 0, 0, 0, 0, 0⟩
  else
    let commRange := cfg.fibrasIda ++ cfg.fibrasVuelta
    { commOk := (segments.map (fun fb => countOk fb commRange)).sum
      commTotal := segments.length * commRange.length
      reserveOk := (segments.map (fun fb => countOk fb cfg.fibrasReserva)).sum
      reserveTotal := segments.length * cfg.fibrasReserva.length
      cctvOk := (segments.map (fun fb => countOk fb cfg.fibrasCctv)).sum
      cctvTotal := segments.length * cfg.fibrasCctv.length }

/-- Number of candidate nodes not yet visited; together with the stack length
this is the decreasing measure of the search loop. -/
def unvisited {α : Type} [DecidableEq α] (cands vis : List α) : Nat :=
  (cands.filter (fun c => decide (c ∉ vis))).length

/-- Well-formedness of a directed graph as networkx maintains it: every node
carrying adjacency, and every successor, is a registered node. -/
def WFGraph {α : Type} (g : DiGraph α) : Prop :=
  (∀ p ∈ g.adj, p.1 ∈ g.nodes) ∧ (∀ p ∈ g.adj, ∀ q ∈ p.2, q.1 ∈ g.nodes)

/-- The sequence of dict keys produced by `_check_ring_integrity`. -/
def pairKeys (cfg : PlantConfig) : List String :=
  (List.range cfg.ringOrder.length).map (ringKey cfg)

/-- The default plant configuration of constants.py (`DEFAULT_CIRCUITOS`,
`DEFAULT_RING_ORDER`, `DEFAULT_FIBRAS_*`). -/
def defaultPlantConfig : PlantConfig where
  circuitos :=
    [("C1", ["CT21", "CT22"]),
     ("C2", ["CT12", "CT19", "CT20"]),
     ("C3", ["CT16", "CT17", "CT18"]),
     ("C4", ["CT13", "CT14", "CT15"]),
     ("C5", ["CT07", "CT10", "CT11"]),
     ("C6", ["CT04", "CT05", "CT06"]),
     ("C7", ["CT01", "CT02", "CT03"]),
     ("C8", ["CT09", "CT08"])]
  ringOrder := ["C1", "C2", "C3", "C4", "C5", "C6", "C7", "C8"]
  fibrasIda := [1, 2]
  fibrasVuelta := [3, 4]
  fibrasReserva := [5, 6, 7, 8, 9, 10, 11, 12]
  fibrasCctv := [13, 14, 15, 16]

/-- Synthetic graph where node 31 is reached first through a 30-edge detour
(0, then the chain 2..30, then 31), gets marked visited at the depth cap and
is never expanded, although the short route 0 to 1 to 31 to 32 exists. -/
def trapGraph : DiGraph Nat where
  nodes := List.range 33
  adj :=
    (0, [(1, EdgeType.ida), (2, EdgeType.ida)]) ::
      (1, [(31, EdgeType.ida)]) ::
      ((List.range 28).map (fun k => (k + 2, [(k + 3, EdgeType.ida)]))) ++
      [(30, [(31, EdgeType.ida)]), (31, [(32, EdgeType.ida)])]
  broken := []

/-- A simple directed chain 0 to 1 to ... to 32: the target 32 is reachable
only by a 32-edge path, which exceeds the depth cap of 30. -/
def deepChain : DiGraph Nat where
  nodes := List.range 33
  adj := (List.range 32).map (fun k => (k, [(k + 1, EdgeType.ida)]))
  broken := []

/-- Two one-node circuits forming a two-circuit ring. -/
def cfgAB : PlantConfig where
  circuitos := [("C1", ["A"]), ("C2", ["B"])]
  ringOrder := ["C1", "C2"]
  fibrasIda := [1, 2]
  fibrasVuelta := [3, 4]
  fibrasReserva := [5, 6, 7, 8, 9, 10, 11, 12]
  fibrasCctv := [13, 14, 15, 16]

/-- A physical graph holding the two ring CTs but no SET node (for instance
loaded from a snapshot that lacks the center). -/
def physNoSet : PhysGraph where
  nodes := [⟨"A", "ct"⟩, ⟨"B", "ct"⟩]
  edges := []

/-- Physical graph with a center and one CT. -/
def physSetA : PhysGraph where
  nodes := [⟨"SET", "set"⟩, ⟨"A", "ct"⟩]
  edges := []

/-- A logical graph whose adjacency for `SET` is corrupted: the successor
lookup raises, modelling the traversal fault the specification discusses. -/
def dgCorrupt : DiGraph String where
  nodes := ["SET", "A"]
  adj := [("SET", [("A", EdgeType.ida)]), ("A", [("SET", EdgeType.ida)])]
  broken := ["SET"]

/-- The same two-node logical graph without corruption. -/
def dgHealthy : DiGraph String where
  nodes := ["SET", "A"]
  adj := [("SET", [("A", EdgeType.ida)]), ("A", [("SET", EdgeType.ida)])]
  broken := []

/-- A healthy segment between SET and CT1 whose strand 1 is already ok. -/
def stNoop : ModelState where
  phys :=
    { nodes := [⟨"SET", "set"⟩, ⟨"CT1", "ct"⟩]
      edges := [⟨"SET", "CT1", some "SET-CT1", some "C1", some [("1", "ok")]⟩] }
  cacheValid := false
  cache := none
  lastCacheTime := 0

/-- A segment with a mixed strand map: strand 1 carries a value outside the
ok/averiado state space (possible through a loaded snapshot, which
`_init_graph` does not normalize) while strand 2 is averiado. -/
def stWeird : ModelState where
  phys :=
    { nodes := []
      edges := [⟨"SET", "CT1", some "S", none,
                 some [("1", "x"), ("2", "averiado")]⟩] }
  cacheValid := true
  cache := none
  lastCacheTime := 0

/-- Strand map with both vuelta strands and two CCTV strands faulty and
exactly two reserves ok (indices 7..12 absent, hence not ok on read). -/
def fibersBug : List (String × String) :=
  [("3", "averiado"), ("4", "averiado"), ("5", "ok"), ("6", "ok"),
   ("13", "averiado"), ("14", "averiado")]

/-- A two-circuit ring whose names make both consecutive pair keys collide:
both pairs produce the dict key `X-X-X`. -/
def cfgCollide : PlantConfig where
  circuitos := [("X", ["a"]), ("X-X", ["b"])]
  ringOrder := ["X", "X-X"]
  fibrasIda := [1, 2]
  fibrasVuelta := [3, 4]
  fibrasReserva := [5]
  fibrasCctv := [6]

section SearchLemmas

variable {α : Type} [DecidableEq α]

theorem alookup_mem {L : List (α × β)} {a : α} {b : β}
    (h : alookup L a = some b) : (a, b) ∈ L := by
  induction L with
  | nil => simp [alookup] at h
  | cons p rest ih =>
      obtain ⟨k, v⟩ := p
      by_cases hk : k = a
      · subst hk
        simp [alookup] at h
        subst h
        exact List.mem_cons_self _ _
      · simp [alookup, hk] at h
        exact List.mem_cons_of_mem _ (ih h)

theorem alookup_eq_none {L : List (α × β)} {a : α}
    (h : ∀ p ∈ L, p.1 ≠ a) : alookup L a = none := by
  induction L with
  | nil => rfl
  | cons p rest ih =>
      obtain ⟨k, v⟩ := p
      have hk : k ≠ a := h (k, v) (List.mem_cons_self _ _)
      simp [alookup, hk]
      exact ih (fun q hq => h q (List.mem_cons_of_mem _ hq))

theorem alookup_of_mem_nodup {L : List (α × β)} (hnd : (L.map Prod.fst).Nodup)
    {k : α} {v : β} (h : (k, v) ∈ L) : alookup L k = some v := by
  induction L with
  | nil => simp at h
  | cons p rest ih =>
      obtain ⟨k0, v0⟩ := p
      simp only [List.map_cons, List.nodup_cons] at hnd
      rcases List.mem_cons.mp h with h1 | h1
      · injection h1 with hk hv
        subst hk
        subst hv
        simp [alookup]
      · have hk : k0 ≠ k := by
          intro he
          exact hnd.1 (he ▸ List.mem_map_of_mem Prod.fst h1)
        simp [alookup, hk]
        exact ih hnd.2 h1

theorem succList_sub_candidates (g : DiGraph α) (n : α) :
    ∀ x ∈ succList g n, x ∈ candidates g := by
  intro x hx
  unfold succList at hx
  cases h : alookup g.adj n with
  | none => rw [h] at hx; simp at hx
  | some sl =>
      rw [h] at hx
      simp only [Option.getD_some] at hx
      have hmem : (n, sl) ∈ g.adj := alookup_mem h
      unfold candidates
      rw [List.mem_flatten]
      exact ⟨sl.map Prod.fst, List.mem_map.mpr ⟨(n, sl), hmem, rfl⟩, hx⟩

theorem successorsE_ok_eq {g : DiGraph α} {n : α} {l : List α}
    (h : successorsE g n = Except.ok l) : l = succList g n := by
  unfold successorsE at h
  by_cases hb : n ∈ g.broken
  · simp [hb] at h
  · simp [hb] at h
    exact h.symm

theorem unvisited_cons_le (cands vis : List α) (x : α) :
    unvisited cands (x :: vis) ≤ unvisited cands vis := by
  induction cands with
  | nil => exact Nat.le_refl _
  | cons c cs ih =>
      unfold unvisited at *
      rw [List.filter_cons, List.filter_cons]
      by_cases h1 : c ∈ x :: vis
      · rw [if_neg (by simp [h1])]
        by_cases h3 : c ∈ vis
        · rw [if_neg (by simp [h3])]
          exact ih
        · rw [if_pos (by simp [h3])]
          simp only [List.length_cons]
          exact Nat.le_trans ih (Nat.le_succ _)
      · have h3 : c ∉ vis := fun hc => h1 (List.mem_cons_of_mem _ hc)
        rw [if_pos (by simp [h1]), if_pos (by simp [h3])]
        simp only [List.length_cons]
        exact Nat.succ_le_succ ih

theorem unvisited_cons_lt (cands vis : List α) (x : α)
    (hx : x ∈ cands) (hv : x ∉ vis) :
    unvisited cands (x :: vis) < unvisited cands vis := by
  induction cands with
  | nil => simp at hx
  | cons c cs ih =>
      unfold unvisited at *
      rw [List.filter_cons, List.filter_cons]
      by_cases hcx : c = x
      · subst hcx
        rw [if_neg (by simp), if_pos (by simp [hv])]
        simp only [List.length_cons]
        exact Nat.lt_succ_of_le (unvisited_cons_le cs vis c)
      · rcases List.mem_cons.mp hx with he | hm
        · exact absurd he.symm hcx
        · by_cases h3 : c ∈ vis
          · rw [if_neg (by simp [h3]), if_neg (by simp [h3])]
            exact ih hm
          · have h2 : c ∉ x :: vis := by
              intro hc
              rcases List.mem_cons.mp hc with he | hmm
              · exact hcx he
              · exact h3 hmm
            rw [if_pos (by simp [h2]), if_pos (by simp [h3])]
            simp only [List.length_cons]
            exact Nat.succ_lt_succ (ih hm)

theorem pushAll_measure (cands : List α) (d : Nat) :
    ∀ (ns visited : List α) (acc : List (α × Nat)), (∀ n ∈ ns, n ∈ cands) →
      (pushAll d ns visited acc).2.length
          + 2 * unvisited cands (pushAll d ns visited acc).1
        ≤ acc.length + 2 * unvisited cands visited := by
  intro ns
  induction ns with
  | nil => intro visited acc _; simp [pushAll]
  | cons n ns ih =>
      intro visited acc h
      unfold pushAll
      by_cases hn : n ∈ visited
      · simp only [hn, if_true]
        exact ih visited acc (fun m hm => h m (List.mem_cons_of_mem _ hm))
      · simp only [hn, if_false]
        have hlt : unvisited cands (n :: visited) < unvisited cands visited :=
          unvisited_cons_lt cands visited n (h n (List.mem_cons_self _ _)) hn
        have hih := ih (n :: visited) ((n, d + 1) :: acc)
          (fun m hm => h m (List.mem_cons_of_mem _ hm))
        simp only [List.length_cons] at hih
        omega

theorem pushAll_mem (d : Nat) :
    ∀ (ns visited : List α) (acc : List (α × Nat)) (e : α × Nat),
      e ∈ (pushAll d ns visited acc).2 → e ∈ acc ∨ (e.1 ∈ ns ∧ e.2 = d + 1) := by
  intro ns
  induction ns with
  | nil => intro visited acc e he; exact Or.inl he
  | cons n ns ih =>
      intro visited acc e he
      unfold pushAll at he
      by_cases hn : n ∈ visited
      · simp only [hn, if_true] at he
        rcases ih visited acc e he with h | h
        · exact Or.inl h
        · exact Or.inr ⟨List.mem_cons_of_mem _ h.1, h.2⟩
      · simp only [hn, if_false] at he
        rcases ih (n :: visited) ((n, d + 1) :: acc) e he with h | h
        · rcases List.mem_cons.mp h with he1 | he1
          · refine Or.inr ⟨?_, ?_⟩
            · rw [he1]; exact List.mem_cons_self _ _
            · rw [he1]
          · exact Or.inl he1
        · exact Or.inr ⟨List.mem_cons_of_mem _ h.1, h.2⟩

theorem hasPathRun_isSome (g : DiGraph α) (t : α) (md : Nat) :
    ∀ (fuel : Nat) (visited : List α) (stack : List (α × Nat)),
      stack.length + 2 * unvisited (candidates g) visited < fuel →
      (hasPathRun g t md fuel visited stack).isSome := by
  intro fuel
  induction fuel with
  | zero => intro _ _ h; omega
  | succ fuel ih =>
      intro visited stack h
      match stack with
      | [] => simp [hasPathRun]
      | (node, depth) :: rest =>
          rw [hasPathRun]
          by_cases ht : node = t
          · simp [ht]
          · simp only [ht, if_false]
            by_cases hd : md ≤ depth
            · simp only [hd, if_true]
              apply ih
              simp only [List.length_cons] at h
              omega
            · simp only [hd, if_false]
              cases hs : successorsE g node with
              | error e => simp
              | ok neighbors =>
                  simp only []
                  apply ih
                  have hsub : ∀ n ∈ neighbors, n ∈ candidates g := by
                    intro n hn
                    rw [successorsE_ok_eq hs] at hn
                    exact succList_sub_candidates g node n hn
                  have hm := pushAll_measure (candidates g) depth neighbors visited [] hsub
                  simp only [List.length_nil] at hm
                  simp only [List.length_cons] at h
                  rw [List.length_append]
                  omega

theorem hasPathRun_terminates (g : DiGraph α) (a b : α) (md : Nat) :
    ∃ r : Bool, hasPathRun g b md (pathFuel g) [a] [(a, 0)] = some r := by
  have hle : unvisited (candidates g) [a] ≤ (candidates g).length :=
    List.length_filter_le _ _
  have h : ([(a, 0)] : List (α × Nat)).length
      + 2 * unvisited (candidates g) [a] < pathFuel g := by
    simp only [List.length_singleton, pathFuel]
    omega
  have := hasPathRun_isSome g b md (pathFuel g) [a] [(a, 0)] h
  exact Option.isSome_iff_exists.mp this

theorem mem_foldr_succ (g : DiGraph α) (l : List α) (y : α) :
    y ∈ l.foldr (fun n acc => succList g n ++ acc) [] ↔
      ∃ x ∈ l, y ∈ succList g x := by
  induction l with
  | nil => simp
  | cons c cs ih => simp [List.mem_append, ih]

theorem mem_reachSet_self (g : DiGraph α) (a : α) (k : Nat) :
    a ∈ reachSet g a k := by
  induction k with
  | zero => simp [reachSet]
  | succ k ih =>
      simp only [reachSet, List.mem_dedup, List.mem_append]
      exact Or.inl ih

theorem reachSet_mono {g : DiGraph α} {a x : α} {k : Nat}
    (h : x ∈ reachSet g a k) : x ∈ reachSet g a (k + 1) := by
  simp only [reachSet, List.mem_dedup, List.mem_append]
  exact Or.inl h

theorem reachSet_le {g : DiGraph α} {a x : α} {k m : Nat} (hkm : k ≤ m)
    (h : x ∈ reachSet g a k) : x ∈ reachSet g a m := by
  induction m with
  | zero =>
      have : k = 0 := Nat.le_zero.mp hkm
      exact this ▸ h
  | succ m ih =>
      rcases Nat.lt_or_ge k (m + 1) with hlt | hge
      · exact reachSet_mono (ih (Nat.lt_succ_iff.mp hlt))
      · have : k = m + 1 := Nat.le_antisymm hkm hge
        exact this ▸ h

theorem reachSet_step {g : DiGraph α} {a x y : α} {k : Nat}
    (hx : x ∈ reachSet g a k) (hy : y ∈ succList g x) :
    y ∈ reachSet g a (k + 1) := by
  simp only [reachSet, List.mem_dedup, List.mem_append]
  exact Or.inr ((mem_foldr_succ g _ y).mpr ⟨x, hx, hy⟩)

theorem reachSet_src {g : DiGraph α} {a x : α} {k : Nat}
    (h : x ∈ reachSet g a k) : x = a ∨ ∃ y, x ∈ succList g y := by
  induction k with
  | zero => simp [reachSet] at h; exact Or.inl h
  | succ k ih =>
      simp only [reachSet, List.mem_dedup, List.mem_append] at h
      rcases h with h | h
      · exact ih h
      · rcases (mem_foldr_succ g _ x).mp h with ⟨y, _, hy⟩
        exact Or.inr ⟨y, hy⟩

theorem reachSet_only_self {g : DiGraph α} {a : α}
    (hadj : alookup g.adj a = none) {x : α} {k : Nat}
    (h : x ∈ reachSet g a k) : x = a := by
  induction k generalizing x with
  | zero => simpa [reachSet] using h
  | succ k ih =>
      simp only [reachSet, List.mem_dedup, List.mem_append] at h
      rcases h with h | h
      · exact ih h
      · rcases (mem_foldr_succ g _ x).mp h with ⟨y, hy, hx⟩
        have hya : y = a := ih hy
        subst hya
        unfold succList at hx
        rw [hadj] at hx
        simp at hx

theorem hasPathRun_sound (g : DiGraph α) (a b : α) (md : Nat) :
    ∀ (fuel : Nat) (visited : List α) (stack : List (α × Nat)),
      (∀ e ∈ stack, e.2 ≤ md ∧ e.1 ∈ reachSet g a e.2) →
      hasPathRun g b md fuel visited stack = some true →
      b ∈ reachSet g a md := by
  intro fuel
  induction fuel with
  | zero => intro visited stack _ h; simp [hasPathRun] at h
  | succ fuel ih =>
      intro visited stack hinv h
      match stack with
      | [] => simp [hasPathRun] at h
      | (node, depth) :: rest =>
          rw [hasPathRun] at h
          by_cases ht : node = b
          · subst ht
            have := hinv (node, depth) (List.mem_cons_self _ _)
            exact reachSet_le this.1 this.2
          · simp only [ht, if_false] at h
            by_cases hd : md ≤ depth
            · simp only [hd, if_true] at h
              exact ih visited rest
                (fun e he => hinv e (List.mem_cons_of_mem _ he)) h
            · simp only [hd, if_false] at h
              cases hs : successorsE g node with
              | error e => rw [hs] at h; simp at h
              | ok neighbors =>
                  rw [hs] at h
                  simp only [] at h
                  refine ih _ _ ?_ h
                  intro e he
                  rcases List.mem_append.mp he with he1 | he1
                  · rcases pushAll_mem depth neighbors visited [] e he1 with h0 | h0
                    · simp at h0
                    · have hnode := hinv (node, depth) (List.mem_cons_self _ _)
                      have hemem : e.1 ∈ succList g node := by
                        rw [← successorsE_ok_eq hs]
                        exact h0.1
                      constructor
                      · rw [h0.2]; omega
                      · rw [h0.2]
                        exact reachSet_step hnode.2 hemem
                  · exact hinv e (List.mem_cons_of_mem _ he1)

theorem has_path_sound {g : DiGraph α} {a b : α} {md : Nat}
    (h : has_path_limited_iterative g a b md = true) : b ∈ reachSet g a md := by
  unfold has_path_limited_iterative at h
  by_cases hab : a = b
  · subst hab; exact mem_reachSet_self g a md
  · rw [if_neg hab] at h
    cases hr : hasPathRun g b md (pathFuel g) [a] [(a, 0)] with
    | none => rw [hr] at h; simp at h
    | some r =>
        rw [hr] at h
        simp only [Option.getD_some] at h
        subst h
        refine hasPathRun_sound g a b md (pathFuel g) [a] [(a, 0)] ?_ hr
        intro e he
        simp only [List.mem_singleton] at he
        subst he
        exact ⟨Nat.zero_le _, mem_reachSet_self g a 0⟩

theorem has_path_no_adj {g : DiGraph α} {a b : α} {md : Nat}
    (hab : a ≠ b) (hadj : alookup g.adj a = none) :
    has_path_limited_iterative g a b md = false := by
  cases hp : has_path_limited_iterative g a b md
  · rfl
  · exact absurd (reachSet_only_self hadj (has_path_sound hp)).symm hab

theorem has_path_target_unreachable {g : DiGraph α} {a b : α} {md : Nat}
    (hab : a ≠ b) (h : ∀ y, b ∉ succList g y) :
    has_path_limited_iterative g a b md = false := by
  cases hp : has_path_limited_iterative g a b md
  · rfl
  · rcases reachSet_src (has_path_sound hp) with he | ⟨y, hy⟩
    · exact absurd he.symm hab
    · exact absurd hy (h y)

end SearchLemmas

/-- C3: the reachability test is strictly iterative and terminates on every
finite directed graph: it returns `true` immediately when source = target
(first conjunct); for all graphs, sources and targets the fuel-indexed loop
reaches a result within the explicit fuel bound `pathFuel`, which counts loop
iterations, so the computation never hangs or recurses unboundedly (second
conjunct); and whenever the target is not reachable within 30 edges — in
particular when every directed path to it is longer than 30 edges — the test
returns `false` (third conjunct). -/
theorem has_path_iterative_terminates_and_bounded {α : Type} [DecidableEq α] :
    (∀ (g : DiGraph α) (a : α) (md : Nat),
        has_path_limited_iterative g a a md = true)
    ∧ (∀ (g : DiGraph α) (a b : α) (md : Nat),
        ∃ r : Bool, hasPathRun g b md (pathFuel g) [a] [(a, 0)] = some r)
    ∧ (∀ (g : DiGraph α) (a b : α), b ∉ reachSet g a 30 →
        has_path_limited_iterative g a b 30 = false) := by
  refine ⟨?_, ?_, ?_⟩
  · intro g a md
    simp [has_path_limited_iterative]
  · intro g a b md
    exact hasPathRun_terminates g a b md
  · intro g a b hb
    cases hp : has_path_limited_iterative g a b 30
    · rfl
    · exact absurd (has_path_sound hp) hb

/-- Witness for C3: on the 32-edge chain the target is beyond the depth cap
(not in `reachSet _ _ 30`), and the test indeed returns `false`; the loop
also reaches a definite result with the stated fuel. -/
theorem has_path_iterative_terminates_and_bounded_witness :
    ((32 : Nat) ∉ reachSet deepChain 0 30)
    ∧ has_path_limited_iterative deepChain 0 32 30 = false
    ∧ has_path_limited_iterative deepChain 0 0 30 = true
    ∧ (∃ r : Bool,
        hasPathRun deepChain 32 30 (pathFuel deepChain) [0] [(0, 0)] = some r) :=
  ⟨by decide,
   has_path_iterative_terminates_and_bounded.2.2 deepChain 0 32 (by decide),
   has_path_iterative_terminates_and_bounded.1 deepChain 0 30,
   has_path_iterative_terminates_and_bounded.2.1 deepChain 0 32 30⟩

/-- C10: the bounded search is incomplete within its own depth bound.  On
`trapGraph` the target node 32 is joined to the source 0 by a directed path
of only 3 edges (0, 1, 31, 32), yet the test returns `false`: node 31 is
first discovered through the 30-edge detour, marked visited when pushed at
the depth cap, never expanded, and its later short-route discovery is
blocked by the visited set. -/
theorem bounded_search_incomplete :
    has_path_limited_iterative trapGraph 0 32 30 = false
    ∧ (32 : Nat) ∈ reachSet trapGraph 0 3
    ∧ (0 : Nat) ≠ 32 := by
  refine ⟨by decide, by decide, by decide⟩

section RingLemmas

variable {α : Type} [DecidableEq α]

theorem alookup_upsertSucc_self (l : List (α × EdgeType)) (v : α) (ty : EdgeType) :
    alookup (upsertSucc l v ty) v = some ty := by
  induction l with
  | nil => simp [upsertSucc, alookup]
  | cons p rest ih =>
      obtain ⟨w, t⟩ := p
      by_cases hw : w = v
      · subst hw
        simp [upsertSucc, alookup]
      · simp [upsertSucc, alookup, hw, ih]

theorem alookup_adjInsert_self (adj : List (α × List (α × EdgeType)))
    (u v : α) (ty : EdgeType) :
    alookup (adjInsert adj u v ty) u =
      some (upsertSucc ((alookup adj u).getD []) v ty) := by
  induction adj with
  | nil => simp [adjInsert, alookup, upsertSucc]
  | cons p rest ih =>
      obtain ⟨w, l⟩ := p
      by_cases hw : w = u
      · subst hw
        simp [adjInsert, alookup]
      · simp [adjInsert, alookup, hw, ih]

theorem edgeData_addEdge_self (g : DiGraph α) (u v : α) (ty : EdgeType) :
    edgeData (addEdge g u v ty) u v = some ty := by
  unfold edgeData addEdge
  simp only [alookup_adjInsert_self, Option.getD_some]
  exact alookup_upsertSucc_self _ v ty

end RingLemmas

/-- C1 (amended): at each ring position whose two CT lists are non-empty and
whose last node, first node and the center `SET` are all present in the
graph built so far, the ring step leaves a `set_patch` edge from last to
first exactly when the bounded-depth search (cap 30) found no directed path
from last to first, or such an edge was already present. -/
theorem ring_patch_edge_iff (cfg : PlantConfig) (DG : DiGraph String) (i : Nat)
    (hA : ringCtsA cfg i ≠ []) (hB : ringCtsB cfg i ≠ [])
    (h1 : ringLast cfg i ∈ DG.nodes) (h2 : "SET" ∈ DG.nodes)
    (h3 : ringFirst cfg i ∈ DG.nodes) :
    edgeData (ringStep cfg DG i) (ringLast cfg i) (ringFirst cfg i)
        = some EdgeType.set_patch ↔
      (has_path_limited_iterative DG (ringLast cfg i) (ringFirst cfg i) 30 = false
        ∨ edgeData DG (ringLast cfg i) (ringFirst cfg i)
            = some EdgeType.set_patch) := by
  unfold ringStep
  rw [if_neg (by simp [hA, hB])]
  simp only []
  cases hp : has_path_limited_iterative DG (ringLast cfg i) (ringFirst cfg i) 30
  · rw [if_pos]
    · simp [edgeData_addEdge_self]
    · simp [hasNode, h1, h2, h3, hp]
  · rw [if_neg]
    · simp
    · simp [hp]

/-- Witness for C1: a concrete two-circuit ring over nodes A and B with SET
present and no pre-existing path, where the amended equivalence holds. -/
theorem ring_patch_edge_iff_witness :
    (ringCtsA cfgAB 0 ≠ [] ∧ ringCtsB cfgAB 0 ≠ []
      ∧ ringLast cfgAB 0 ∈ (⟨["A", "B", "SET"], [], []⟩ : DiGraph String).nodes
      ∧ "SET" ∈ (⟨["A", "B", "SET"], [], []⟩ : DiGraph String).nodes
      ∧ ringFirst cfgAB 0 ∈ (⟨["A", "B", "SET"], [], []⟩ : DiGraph String).nodes)
    ∧ (edgeData (ringStep cfgAB ⟨["A", "B", "SET"], [], []⟩ 0)
          (ringLast cfgAB 0) (ringFirst cfgAB 0) = some EdgeType.set_patch ↔
        (has_path_limited_iterative (⟨["A", "B", "SET"], [], []⟩ : DiGraph String)
            (ringLast cfgAB 0) (ringFirst cfgAB 0) 30 = false
          ∨ edgeData (⟨["A", "B", "SET"], [], []⟩ : DiGraph String)
              (ringLast cfgAB 0) (ringFirst cfgAB 0) = some EdgeType.set_patch)) :=
  ⟨⟨by decide, by decide, by decide, by decide, by decide⟩,
   ring_patch_edge_iff cfgAB ⟨["A", "B", "SET"], [], []⟩ 0
     (by decide) (by decide) (by decide) (by decide) (by decide)⟩

/-- Counterexample to C1 as stated: building the logical graph over a
physical graph that lacks the SET node, the first ring pair has non-empty CT
lists and no directed path from its last node A to its first node B in the
graph built so far, yet no ring-patch edge is added — the source also
requires `DG.has_node` on the SET node (and both endpoints) before patching. -/
theorem ring_patch_missing_set_counterexample :
    ringCtsA cfgAB 0 ≠ [] ∧ ringCtsB cfgAB 0 ≠ []
    ∧ has_path_limited_iterative (buildPreRing cfgAB physNoSet) "A" "B" 30 = false
    ∧ edgeData (build_directed_logical_graph cfgAB physNoSet) "A" "B" = none := by
  refine ⟨by decide, by decide, by decide, by decide⟩

section WFLemmas

variable {α : Type} [DecidableEq α]

theorem succList_mem_nodes {g : DiGraph α} (hwf : WFGraph g) {x y : α}
    (h : x ∈ succList g y) : x ∈ g.nodes := by
  unfold succList at h
  cases ha : alookup g.adj y with
  | none => rw [ha] at h; simp at h
  | some l =>
      rw [ha] at h
      simp only [Option.getD_some] at h
      rcases List.mem_map.mp h with ⟨q, hq, hx⟩
      exact hx ▸ hwf.2 (y, l) (alookup_mem ha) q hq

theorem alookup_adj_none_of_not_node {g : DiGraph α} (hwf : WFGraph g) {x : α}
    (h : x ∉ g.nodes) : alookup g.adj x = none :=
  alookup_eq_none (fun p hp he => h (he ▸ hwf.1 p hp))

end WFLemmas

/-- C2 (amended): the connectivity query returns connected immediately for
the center; error (not isolated) when the physical store has no such node;
otherwise connected exactly when both bounded reachability tests succeed and
isolated exactly when at least one fails (for a well-formed logical graph the
node-presence shortcut in the source agrees with the two tests); and the
full-network query computes the status of every node with this same per-node
function, so a fault in the traversal of one node — which the traversal itself
catches and converts to a failed test — cannot abort the query. -/
theorem check_ct_connectivity_spec (P : PhysGraph) (DG : DiGraph String)
    (t : String) (hwf : WFGraph DG) :
    (t = "SET" → check_ct_connectivity_with P DG t = CtStatus.conectado)
    ∧ (t ≠ "SET" → t ∉ P.nodes.map PNode.id →
        check_ct_connectivity_with P DG t = CtStatus.error)
    ∧ (t ≠ "SET" → t ∈ P.nodes.map PNode.id →
        ((check_ct_connectivity_with P DG t = CtStatus.conectado ↔
           (has_path_limited_iterative DG "SET" t 30 = true ∧
            has_path_limited_iterative DG t "SET" 30 = true))
         ∧ (check_ct_connectivity_with P DG t = CtStatus.aislado ↔
           ¬(has_path_limited_iterative DG "SET" t 30 = true ∧
             has_path_limited_iterative DG t "SET" 30 = true))))
    ∧ (∀ pr ∈ networkStatusCts P DG,
        pr.2 = check_ct_connectivity_with P DG pr.1) := by
  refine ⟨?_, ?_, ?_, ?_⟩
  · intro h
    simp [check_ct_connectivity_with, h]
  · intro h1 h2
    simp [check_ct_connectivity_with, h1, h2]
  · intro h1 h2
    unfold check_ct_connectivity_with
    rw [if_neg h1, if_neg (by simp [h2])]
    by_cases hS : "SET" ∈ DG.nodes
    · by_cases hT : t ∈ DG.nodes
      · rw [if_neg (by simp [hasNode, hS, hT])]
        cases hp : (has_path_limited_iterative DG "SET" t 30 &&
            has_path_limited_iterative DG t "SET" 30)
        · rw [if_neg (by simp)]
          constructor
          · constructor
            · intro h; exact absurd h (by simp)
            · intro ⟨ha, hb⟩
              rw [ha, hb] at hp
              simp at hp
          · constructor
            · intro _ ⟨ha, hb⟩
              rw [ha, hb] at hp
              simp at hp
            · intro _; rfl
        · rw [if_pos rfl]
          have hb := Bool.and_eq_true_iff.mp hp
          constructor
          · simp [hb.1, hb.2]
          · constructor
            · intro h; exact absurd h (by simp)
            · intro h; exact absurd ⟨hb.1, hb.2⟩ h
      · rw [if_pos (by simp [hasNode, hT])]
        have hp1 : has_path_limited_iterative DG "SET" t 30 = false :=
          has_path_target_unreachable (fun he => h1 he.symm)
            (fun y hy => hT (succList_mem_nodes hwf hy))
        constructor
        · constructor
          · intro h; exact absurd h (by simp)
          · intro ⟨ha, _⟩
            rw [ha] at hp1
            simp at hp1
        · constructor
          · intro _ ⟨ha, _⟩
            rw [ha] at hp1
            simp at hp1
          · intro _; rfl
    · rw [if_pos (by simp [hasNode, hS])]
      have hp1 : has_path_limited_iterative DG "SET" t 30 = false :=
        has_path_no_adj (fun he => h1 he.symm)
          (alookup_adj_none_of_not_node hwf hS)
      constructor
      · constructor
        · intro h; exact absurd h (by simp)
        · intro ⟨ha, _⟩
          rw [ha] at hp1
          simp at hp1
      · constructor
        · intro _ ⟨ha, _⟩
          rw [ha] at hp1
          simp at hp1
        · intro _; rfl
  · intro pr hpr
    unfold networkStatusCts at hpr
    rcases List.mem_map.mp hpr with ⟨ct, _, he⟩
    rw [← he]

/-- Witness for C2: on a healthy two-node logical graph the equivalences of
`check_ct_connectivity_spec` hold for the CT `A`, which is connected. -/
theorem check_ct_connectivity_spec_witness :
    (("A" : String) ≠ "SET")
    ∧ ("A" ∈ physSetA.nodes.map PNode.id)
    ∧ ((check_ct_connectivity_with physSetA dgHealthy "A" = CtStatus.conectado ↔
         (has_path_limited_iterative dgHealthy "SET" "A" 30 = true ∧
          has_path_limited_iterative dgHealthy "A" "SET" 30 = true))
       ∧ (check_ct_connectivity_with physSetA dgHealthy "A" = CtStatus.aislado ↔
         ¬(has_path_limited_iterative dgHealthy "SET" "A" 30 = true ∧
           has_path_limited_iterative dgHealthy "A" "SET" 30 = true))) :=
  ⟨by decide, by decide,
   (check_ct_connectivity_spec physSetA dgHealthy "A"
       ⟨by decide, by decide⟩).2.2.1 (by decide) (by decide)⟩

/-- Counterexample to C2 as stated: the adjacency of SET in `dgCorrupt`
raises on successor lookup (a traversal fault), the queried node A exists in
the physical store, and the query reports `aislado`, not the `error` status
the claim requires for a traversal exception — the traversal swallows the
fault and reports it as a failed path test. -/
theorem traversal_fault_reported_isolated_counterexample :
    successorsE dgCorrupt "SET" = Except.error ()
    ∧ ("A" ∈ physSetA.nodes.map PNode.id)
    ∧ check_ct_connectivity_with physSetA dgCorrupt "A" = CtStatus.aislado
    ∧ check_ct_connectivity_with physSetA dgCorrupt "A" ≠ CtStatus.error := by
  refine ⟨?_, by decide, by decide, by decide⟩
  unfold successorsE
  rw [if_pos (by decide)]

section DictLemmas

variable {α β : Type} [DecidableEq α]

theorem dinsert_append (L : List (α × β)) (k : α) (v : β)
    (h : ∀ p ∈ L, p.1 ≠ k) : dinsert L k v = L ++ [(k, v)] := by
  induction L with
  | nil => rfl
  | cons p rest ih =>
      obtain ⟨k0, v0⟩ := p
      have hk : k0 ≠ k := h (k0, v0) (List.mem_cons_self _ _)
      simp only [dinsert, hk, if_false, List.cons_append]
      rw [ih (fun q hq => h q (List.mem_cons_of_mem _ hq))]

theorem foldl_dinsert_fresh :
    ∀ (L acc : List (α × β)), (L.map Prod.fst).Nodup →
      (∀ k ∈ L.map Prod.fst, ∀ p ∈ acc, p.1 ≠ k) →
      L.foldl (fun r p => dinsert r p.1 p.2) acc = acc ++ L := by
  intro L
  induction L with
  | nil => intro acc _ _; simp
  | cons q L ih =>
      intro acc hnd hfresh
      obtain ⟨k, v⟩ := q
      simp only [List.foldl_cons]
      have h1 : dinsert acc k v = acc ++ [(k, v)] :=
        dinsert_append acc k v (fun p hp => hfresh k (by simp) p hp)
      simp only [List.map_cons, List.nodup_cons] at hnd
      have h2 : ∀ k2 ∈ L.map Prod.fst, ∀ p ∈ acc ++ [(k, v)], p.1 ≠ k2 := by
        intro k2 hk2 p hp
        rcases List.mem_append.mp hp with hp1 | hp1
        · exact hfresh k2 (List.mem_cons_of_mem _ hk2) p hp1
        · simp only [List.mem_singleton] at hp1
          rw [hp1]
          intro he
          refine hnd.1 ?_
          rw [show k = k2 from he]
          exact hk2
      rw [h1, ih (acc ++ [(k, v)]) hnd.2 h2, List.append_assoc]
      rfl

end DictLemmas

theorem ringValue_eq (cfg : PlantConfig) (DG : DiGraph String) (i : Nat)
    (hwf : WFGraph DG) :
    ringValue cfg DG i =
      if ringCtsA cfg i = [] ∨ ringCtsB cfg i = []
          ∨ ringLast cfg i = ringFirst cfg i then false
      else has_path_limited_iterative DG (ringLast cfg i) (ringFirst cfg i) 30 := by
  unfold ringValue
  by_cases h1 : ringCtsA cfg i = [] ∨ ringCtsB cfg i = []
  · rw [if_pos h1, if_pos (h1.elim Or.inl (fun h => Or.inr (Or.inl h)))]
  · rw [if_neg h1]
    by_cases h2 : ringLast cfg i = ringFirst cfg i
    · rw [if_pos h2, if_pos (Or.inr (Or.inr h2))]
    · rw [if_neg h2]
      have hrhs : ¬(ringCtsA cfg i = [] ∨ ringCtsB cfg i = []
          ∨ ringLast cfg i = ringFirst cfg i) := by
        push_neg at h1 ⊢
        exact ⟨h1.1, h1.2, h2⟩
      rw [if_neg hrhs]
      by_cases hF : ringLast cfg i ∈ DG.nodes
      · by_cases hI : ringFirst cfg i ∈ DG.nodes
        · rw [if_pos (by simp [hasNode, hF, hI])]
        · rw [if_neg (by simp [hasNode, hI])]
          exact (has_path_target_unreachable h2
            (fun y hy => hI (succList_mem_nodes hwf hy))).symm
      · rw [if_neg (by simp [hasNode, hF])]
        exact (has_path_no_adj h2 (alookup_adj_none_of_not_node hwf hF)).symm

/-- C8 (amended): for a well-formed logical graph and pairwise-distinct pair
keys, the ring-integrity map has exactly one entry per ring position (hence
as many entries as circuits), and the entry for each pair is false when
either CT list is empty or last equals first, and otherwise is exactly the
result of the bounded directed-path test between the two nodes.  (The source
also records false when an endpoint is missing from the graph, but for a
well-formed graph the path test is false there too.) -/
theorem check_ring_integrity_spec (cfg : PlantConfig) (DG : DiGraph String)
    (hwf : WFGraph DG) (hnd : (pairKeys cfg).Nodup) :
    (check_ring_integrity cfg DG).length = cfg.ringOrder.length
    ∧ ∀ i < cfg.ringOrder.length,
        alookup (check_ring_integrity cfg DG) (ringKey cfg i) =
          some (if ringCtsA cfg i = [] ∨ ringCtsB cfg i = []
                  ∨ ringLast cfg i = ringFirst cfg i then false
                else has_path_limited_iterative DG (ringLast cfg i)
                      (ringFirst cfg i) 30) := by
  have hkeys : ((List.range cfg.ringOrder.length).map
      (fun i => (ringKey cfg i, ringValue cfg DG i))).map Prod.fst
        = pairKeys cfg := by
    rw [List.map_map]
    rfl
  have hmain : check_ring_integrity cfg DG =
      (List.range cfg.ringOrder.length).map
        (fun i => (ringKey cfg i, ringValue cfg DG i)) := by
    unfold check_ring_integrity
    have h := foldl_dinsert_fresh
      ((List.range cfg.ringOrder.length).map
        (fun i => (ringKey cfg i, ringValue cfg DG i))) []
      (by rw [hkeys]; exact hnd) (by simp)
    rw [List.foldl_map] at h
    simpa using h
  constructor
  · rw [hmain]
    simp
  · intro i hi
    rw [hmain, ← ringValue_eq cfg DG i hwf]
    exact alookup_of_mem_nodup (by rw [hkeys]; exact hnd)
      (List.mem_map.mpr ⟨i, List.mem_range.mpr hi, rfl⟩)

/-- Witness for C8: for the two-circuit ring `cfgAB` the pair keys are
distinct, the map has two entries, and the entry of the first pair is the
bounded path test from A to B. -/
theorem check_ring_integrity_spec_witness :
    ((pairKeys cfgAB).Nodup)
    ∧ (check_ring_integrity cfgAB ⟨["A", "B", "SET"], [], []⟩).length
        = cfgAB.ringOrder.length
    ∧ alookup (check_ring_integrity cfgAB ⟨["A", "B", "SET"], [], []⟩)
          (ringKey cfgAB 0) =
        some (if ringCtsA cfgAB 0 = [] ∨ ringCtsB cfgAB 0 = []
                ∨ ringLast cfgAB 0 = ringFirst cfgAB 0 then false
              else has_path_limited_iterative
                    (⟨["A", "B", "SET"], [], []⟩ : DiGraph String)
                    (ringLast cfgAB 0) (ringFirst cfgAB 0) 30) :=
  ⟨by decide,
   (check_ring_integrity_spec cfgAB ⟨["A", "B", "SET"], [], []⟩
       ⟨by decide, by decide⟩ (by decide)).1,
   (check_ring_integrity_spec cfgAB ⟨["A", "B", "SET"], [], []⟩
       ⟨by decide, by decide⟩ (by decide)).2 0 (by decide)⟩

/-- Counterexample to C8 as stated: with circuits named X and X-X both ring
pairs produce the same dict key X-X-X, so the integrity map of this
two-circuit ring has a single entry — fewer entries than circuits. -/
theorem ring_integrity_key_collision_counterexample :
    (check_ring_integrity cfgCollide ⟨["a", "b", "SET"], [], []⟩).length = 1
    ∧ cfgCollide.ringOrder.length = 2 := by
  refine ⟨by decide, by decide⟩

/-- C4 (code bug): on a segment with both vuelta strands 3 and 4 faulty, two
CCTV strands faulty and exactly two reserves ok (5 and 6), the advisor
proposes reserves 5 and 6 for the return direction and then proposes the
same reserves 5 and 6 again for CCTV: the vuelta branch never removes its
proposal from the pool (the reassignment present in the ida branch at line
555 is missing at lines 563-565), so four reserve strands are proposed while
only two are ok — contradicting the claimed single-pool consumption and the
bound by available reserves. -/
theorem advisor_double_allocation :
    segment_reserve_suggestions defaultPlantConfig fibersBug =
      [Sug.vueltaFault [3, 4], Sug.vueltaUse [5, 6],
       Sug.cctvFault [13, 14], Sug.cctvUse [5, 6]]
    ∧ proposedCount (segment_reserve_suggestions defaultPlantConfig fibersBug) = 4
    ∧ countOk fibersBug defaultPlantConfig.fibrasReserva = 2
    ∧ countOk fibersBug defaultPlantConfig.fibrasReserva
        < proposedCount (segment_reserve_suggestions defaultPlantConfig fibersBug) := by
  refine ⟨by decide, by decide, by decide, by decide⟩

/-- C6 (amended): the direction check of the logical-graph derivation is true
exactly when some index of the direction list is explicitly stored with
state ok, and a strand index absent from the stored map is treated as NOT ok
both there and in the ok-counting read of the statistics — missing indices
do not default to ok. -/
theorem missing_strand_reads_not_ok :
    (∀ (fibers : List (String × String)) (dir : List Nat),
        check_segment_path_direction fibers dir = true ↔
          ∃ n ∈ dir, alookup fibers (toString n) = some "ok")
    ∧ (∀ (fibers : List (String × String)) (n : Nat),
        alookup fibers (toString n) = none →
          check_segment_path_direction fibers [n] = false
          ∧ countOk fibers [n] = 0) := by
  have hmain : ∀ (fibers : List (String × String)) (dir : List Nat),
      check_segment_path_direction fibers dir = true ↔
        ∃ n ∈ dir, alookup fibers (toString n) = some "ok" := by
    intro fibers dir
    unfold check_segment_path_direction
    by_cases hf : fibers = []
    · subst hf
      rw [if_pos rfl]
      constructor
      · intro h; exact absurd h (by simp)
      · intro ⟨n, _, h⟩; simp [alookup] at h
    · rw [if_neg hf, List.any_eq_true]
      constructor
      · intro ⟨n, hn, h⟩
        exact ⟨n, hn, by simpa using h⟩
      · intro ⟨n, hn, h⟩
        exact ⟨n, hn, by simp [h]⟩
  refine ⟨hmain, ?_⟩
  intro fibers n h
  constructor
  · cases hc : check_segment_path_direction fibers [n]
    · rfl
    · rcases (hmain fibers [n]).mp hc with ⟨m, hm, hl⟩
      simp only [List.mem_singleton] at hm
      subst hm
      rw [h] at hl
      exact absurd hl (by simp)
  · unfold countOk
    simp [h]

/-- Witness for C6: with the stored map holding only strand 5, the absent
strand 1 reads as not ok in the direction check and counts zero in the
statistics. -/
theorem missing_strand_reads_not_ok_witness :
    (alookup [("5", "ok")] (toString 1) = none)
    ∧ check_segment_path_direction [("5", "ok")] [1] = false
    ∧ countOk [("5", "ok")] [1] = 0 :=
  ⟨by decide,
   (missing_strand_reads_not_ok.2 [("5", "ok")] 1 (by decide)).1,
   (missing_strand_reads_not_ok.2 [("5", "ok")] 1 (by decide)).2⟩

/-- Counterexample to C6 as stated: strand 1 is absent from the stored map
holding only strand 5; if the absent index defaulted to ok on read, the
forward-role check for direction list containing index 1 would be true as it
is when the index is stored ok, but the code returns false. -/
theorem missing_strand_counterexample :
    alookup [("5", "ok")] "1" = none
    ∧ check_segment_path_direction [("5", "ok")] [1] = false
    ∧ check_segment_path_direction [("5", "ok"), ("1", "ok")] [1] = true := by
  refine ⟨by decide, by decide, by decide⟩

theorem updateEdgesLoop_found_iff (sid key ns : String) (es : List Edge) :
    ((∃ es2 old, updateEdgesLoop sid key ns es = FiberUpd.changed es2 old)
      ∨ (∃ es2, updateEdgesLoop sid key ns es = FiberUpd.unchanged es2)) ↔
    (∃ e, es.find? (fun e => segMatch e sid) = some e
      ∧ (alookup (e.fibers.getD initialFiberStatus) key).isSome) := by
  induction es with
  | nil => simp [updateEdgesLoop, List.find?]
  | cons e0 rest ih =>
      by_cases hm : segMatch e0 sid = true
      · unfold updateEdgesLoop
        rw [if_pos hm]
        rw [show List.find? (fun e => segMatch e sid) (e0 :: rest) = some e0 by
          simp [List.find?, hm]]
        cases hlk : alookup (e0.fibers.getD initialFiberStatus) key with
        | none => simp [hlk]
        | some old =>
            by_cases hne : old ≠ ns
            · simp [hlk, hne]
            · simp [hlk, hne]
      · unfold updateEdgesLoop
        rw [if_neg hm]
        rw [show List.find? (fun e => segMatch e sid) (e0 :: rest)
              = List.find? (fun e => segMatch e sid) rest by
          simp [List.find?, hm]]
        rw [← ih]
        cases hr : updateEdgesLoop sid key ns rest <;> simp [hr]

/-- C5 (amended): the boolean of the `(bool, message)` pair returned by the
fiber mutation reports whether the segment was found with the strand index
present in its (possibly just materialized) strand map — operation success —
not whether a change occurred; in particular it is true for a no-op write. -/
theorem update_fiber_bool_reports_found (s : ModelState) (segId : String)
    (n : Nat) (st : String) (h : st = "ok" ∨ st = "averiado") :
    ((update_fiber_status s segId n st).2.1 = true ↔
      ∃ e, s.phys.edges.find? (fun e => segMatch e segId) = some e
        ∧ (alookup (e.fibers.getD initialFiberStatus) (toString n)).isSome) := by
  have hvalid : ¬(st ≠ "ok" ∧ st ≠ "averiado") := by
    rcases h with h | h <;> simp [h]
  unfold update_fiber_status
  rw [if_neg hvalid]
  rw [← updateEdgesLoop_found_iff segId (toString n) st s.phys.edges]
  cases hr : updateEdgesLoop segId (toString n) st s.phys.edges <;> simp [hr]

/-- Witness for C5: a no-op write (strand 1 already ok) on an existing
segment returns the boolean true, matching the found-and-present condition. -/
theorem update_fiber_bool_reports_found_witness :
    (("ok" : String) = "ok" ∨ ("ok" : String) = "averiado")
    ∧ ((update_fiber_status stNoop "SET-CT1" 1 "ok").2.1 = true ↔
        ∃ e, stNoop.phys.edges.find? (fun e => segMatch e "SET-CT1") = some e
          ∧ (alookup (e.fibers.getD initialFiberStatus) (toString 1)).isSome) :=
  ⟨Or.inl rfl,
   update_fiber_bool_reports_found stNoop "SET-CT1" 1 "ok" (Or.inl rfl)⟩

/-- Counterexample to C5 as stated: writing ok to a strand that is already
ok changes nothing — the edges are unchanged — yet the returned boolean is
true, where the claim requires false for a no-op. -/
theorem update_fiber_noop_counterexample :
    (update_fiber_status stNoop "SET-CT1" 1 "ok").2.1 = true
    ∧ (update_fiber_status stNoop "SET-CT1" 1 "ok").1.phys.edges
        = stNoop.phys.edges := by
  refine ⟨by decide, by decide⟩

theorem restoreFibersList_all_ok (fb : List (String × String))
    (h : ∀ p ∈ fb, p.2 = "ok" ∨ p.2 = "averiado") :
    ∀ p ∈ (restoreFibersList fb).1, p.2 = "ok" := by
  induction fb with
  | nil => simp [restoreFibersList]
  | cons q rest ih =>
      obtain ⟨k, v⟩ := q
      unfold restoreFibersList
      by_cases hv : v = "averiado"
      · rw [if_pos hv]
        intro p hp
        rcases List.mem_cons.mp hp with hp1 | hp1
        · rw [hp1]
        · exact ih (fun q hq => h q (List.mem_cons_of_mem _ hq)) p hp1
      · rw [if_neg hv]
        intro p hp
        rcases List.mem_cons.mp hp with hp1 | hp1
        · rw [hp1]
          rcases h (k, v) (List.mem_cons_self _ _) with ho | ho
          · exact ho
          · exact absurd ho hv
        · exact ih (fun q hq => h q (List.mem_cons_of_mem _ hq)) p hp1

theorem restoreFibersList_cons (k v : String) (rest : List (String × String)) :
    restoreFibersList ((k, v) :: rest) =
      if v = "averiado"
      then ((k, "ok") :: (restoreFibersList rest).1, (restoreFibersList rest).2 + 1)
      else ((k, v) :: (restoreFibersList rest).1, (restoreFibersList rest).2) := rfl

theorem restoreFibersList_idem (fb : List (String × String)) :
    restoreFibersList (restoreFibersList fb).1 = ((restoreFibersList fb).1, 0) := by
  induction fb with
  | nil => rfl
  | cons q rest ih =>
      obtain ⟨k, v⟩ := q
      by_cases hv : v = "averiado"
      · rw [restoreFibersList_cons, if_pos hv]
        simp only []
        rw [restoreFibersList_cons,
          if_neg (by decide : ¬("ok" : String) = "averiado"), ih]
      · rw [restoreFibersList_cons, if_neg hv]
        simp only []
        rw [restoreFibersList_cons, if_neg hv, ih]

theorem restoreEdgesLoop_cons (sid : String) (e : Edge) (rest : List Edge) :
    restoreEdgesLoop sid (e :: rest) =
      if segMatch e sid then
        match e.fibers with
        | none =>
            some ({ e with fibers := some initialFiberStatus } :: rest,
                  DEFAULT_TOTAL_FIBRAS)
        | some fb =>
            some ({ e with fibers := some (restoreFibersList fb).1 } :: rest,
                  (restoreFibersList fb).2)
      else
        match restoreEdgesLoop sid rest with
        | none => none
        | some (es, n) => some (e :: es, n) := rfl

theorem restoreEdgesLoop_idem (sid : String) :
    ∀ (es es2 : List Edge) (n : Nat),
      restoreEdgesLoop sid es = some (es2, n) →
      restoreEdgesLoop sid es2 = some (es2, 0) := by
  intro es
  induction es with
  | nil => intro es2 n h; simp [restoreEdgesLoop] at h
  | cons e rest ih =>
      intro es2 n h
      rw [restoreEdgesLoop_cons] at h
      by_cases hm : segMatch e sid = true
      · rw [if_pos hm] at h
        cases hf : e.fibers with
        | none =>
            rw [hf] at h
            simp only [Option.some.injEq, Prod.mk.injEq] at h
            rw [← h.1, restoreEdgesLoop_cons]
            have hm2 : segMatch { e with fibers := some initialFiberStatus } sid
                = true := hm
            rw [if_pos hm2]
            simp [show restoreFibersList initialFiberStatus
                    = (initialFiberStatus, 0) from by decide]
        | some fb =>
            rw [hf] at h
            simp only [Option.some.injEq, Prod.mk.injEq] at h
            rw [← h.1, restoreEdgesLoop_cons]
            have hm2 : segMatch { e with fibers := some (restoreFibersList fb).1 } sid
                = true := hm
            rw [if_pos hm2]
            simp [restoreFibersList_idem fb]
      · rw [if_neg hm] at h
        cases hr : restoreEdgesLoop sid rest with
        | none => rw [hr] at h; simp at h
        | some p =>
            obtain ⟨es2r, nr⟩ := p
            rw [hr] at h
            simp only [Option.some.injEq, Prod.mk.injEq] at h
            rw [← h.1, restoreEdgesLoop_cons, if_neg hm, ih es2r nr hr]

/-- C9 (amended): one restoration pass rewrites exactly the averiado strands
to ok and counts them, leaving every other stored value — ok, or a value
outside the state space as loadable from a snapshot — untouched, also when
both kinds coexist in one map (first conjunct, a full characterization with
no hypothesis on the stored values; the next two conjuncts state the
per-strand consequences: a strand stored ok or averiado ends up ok, a strand
stored outside the state space is unchanged); the operation is idempotent —
a repeated pass over a restored edge list changes nothing and counts zero
strands; and the cache is invalidated exactly when the changed count is
positive. -/
theorem restore_segment_spec :
    (∀ fb : List (String × String),
        restoreFibersList fb =
          (fb.map (fun p => if p.2 = "averiado" then (p.1, "ok") else p),
           (fb.filter (fun p => p.2 == "averiado")).length))
    ∧ (∀ (fb : List (String × String)) (p : String × String), p ∈ fb →
        p.2 = "ok" ∨ p.2 = "averiado" → (p.1, "ok") ∈ (restoreFibersList fb).1)
    ∧ (∀ (fb : List (String × String)) (p : String × String), p ∈ fb →
        p.2 ≠ "averiado" → p ∈ (restoreFibersList fb).1)
    ∧ (∀ (sid : String) (es es2 : List Edge) (n : Nat),
        restoreEdgesLoop sid es = some (es2, n) →
        restoreEdgesLoop sid es2 = some (es2, 0))
    ∧ (∀ (s : ModelState) (sid : String) (es : List Edge) (n : Nat),
        restoreEdgesLoop sid s.phys.edges = some (es, n) →
          ((restore_segment_fibers s sid).1.cacheValid,
            (restore_segment_fibers s sid).1.cache)
            = if n > 0 then (false, (none : Option (DiGraph String)))
              else (s.cacheValid, s.cache)) := by
  have hchar : ∀ fb : List (String × String),
      restoreFibersList fb =
        (fb.map (fun p => if p.2 = "averiado" then (p.1, "ok") else p),
         (fb.filter (fun p => p.2 == "averiado")).length) := by
    intro fb
    induction fb with
    | nil => rfl
    | cons q rest ih =>
        obtain ⟨k, v⟩ := q
        by_cases hv : v = "averiado"
        · rw [restoreFibersList_cons, if_pos hv, ih]
          simp [hv]
        · rw [restoreFibersList_cons, if_neg hv, ih]
          simp [hv]
  refine ⟨hchar, ?_, ?_, restoreEdgesLoop_idem, ?_⟩
  · intro fb p hp hok
    rw [hchar]
    refine List.mem_map.mpr ⟨p, hp, ?_⟩
    show (if p.2 = "averiado" then (p.1, "ok") else p) = (p.1, "ok")
    rcases hok with h | h
    · rw [if_neg (by rw [h]; decide)]
      exact Prod.ext rfl h
    · rw [if_pos h]
  · intro fb p hp hne
    rw [hchar]
    exact List.mem_map.mpr ⟨p, hp, if_neg hne⟩
  · intro s sid es n h
    by_cases hn : n > 0 <;> simp [restore_segment_fibers, h, hn]

/-- Witness for C9, on the mixed map of `stWeird` holding an out-of-space
value together with an averiado strand: the pass rewrites exactly the
averiado strand (count 1), the averiado strand ends up ok while the
out-of-space strand is untouched, the restore loop is idempotent from the
first call on, and with one strand changed the cache is invalidated. -/
theorem restore_segment_spec_witness :
    restoreFibersList [("1", "x"), ("2", "averiado")]
        = ([("1", "x"), ("2", "ok")], 1)
    ∧ (("2", "ok") ∈ (restoreFibersList [("1", "x"), ("2", "averiado")]).1)
    ∧ (("1", "x") ∈ (restoreFibersList [("1", "x"), ("2", "averiado")]).1)
    ∧ restoreEdgesLoop "S" (restore_segment_fibers stWeird "S").1.phys.edges
        = some ((restore_segment_fibers stWeird "S").1.phys.edges, 0)
    ∧ ((restore_segment_fibers stWeird "S").1.cacheValid,
        (restore_segment_fibers stWeird "S").1.cache)
        = (false, (none : Option (DiGraph String))) :=
  ⟨by
     have h := restore_segment_spec.1 [("1", "x"), ("2", "averiado")]
     simpa using h,
   restore_segment_spec.2.1 [("1", "x"), ("2", "averiado")] ("2", "averiado")
     (by decide) (Or.inr rfl),
   restore_segment_spec.2.2.1 [("1", "x"), ("2", "averiado")] ("1", "x")
     (by decide) (by decide),
   restore_segment_spec.2.2.2.1 "S" stWeird.phys.edges
     (restore_segment_fibers stWeird "S").1.phys.edges 1 (by decide),
   by
     have h := restore_segment_spec.2.2.2.2 stWeird "S"
       (restore_segment_fibers stWeird "S").1.phys.edges 1 (by decide)
     simpa using h⟩

/-- Counterexample to C9 as stated: the segment of `stWeird` stores strand 1
with value x and strand 2 averiado; one restore call rewrites strand 2 to ok
but strand 1 still has value x, so not every strand of the segment is ok
after one call. -/
theorem restore_weird_value_counterexample :
    (restore_segment_fibers stWeird "S").1.phys.edges
      = [⟨"SET", "CT1", some "S", none, some [("1", "x"), ("2", "ok")]⟩]
    ∧ ("x" : String) ≠ "ok" := by
  refine ⟨by decide, by decide⟩

theorem updateEdgesLoop_changed_of (sid key ns : String) :
    ∀ (es : List Edge) (e : Edge) (fb : List (String × String)) (old : String),
      es.find? (fun e => segMatch e sid) = some e →
      e.fibers = some fb → alookup fb key = some old → old ≠ ns →
      ∃ es2, updateEdgesLoop sid key ns es = FiberUpd.changed es2 old := by
  intro es
  induction es with
  | nil => intro e fb old hf; simp [List.find?] at hf
  | cons e0 rest ih =>
      intro e fb old hf hfib hlk hne
      by_cases hm : segMatch e0 sid = true
      · rw [show List.find? (fun e => segMatch e sid) (e0 :: rest) = some e0 by
          simp [List.find?, hm]] at hf
        injection hf with he
        subst he
        unfold updateEdgesLoop
        rw [if_pos hm]
        simp only [hfib, Option.getD_some, hlk]
        rw [if_pos hne]
        exact ⟨_, rfl⟩
      · rw [show List.find? (fun e => segMatch e sid) (e0 :: rest)
              = List.find? (fun e => segMatch e sid) rest by
          simp [List.find?, hm]] at hf
        obtain ⟨es2, h2⟩ := ih e fb old hf hfib hlk hne
        refine ⟨e0 :: es2, ?_⟩
        unfold updateEdgesLoop
        rw [if_neg hm, h2]

/-- C7: within the staleness window of 10 time units and with no intervening
invalidation, a second logical-graph request returns the very same graph and
state, reusing the cache (first conjunct); and a fiber mutation that
actually changes a stored strand state (first matching segment, strand
present, old state different) invalidates the cache — valid flag cleared and
cached graph dropped — so that every subsequent request rebuilds the graph
from the mutated physical state (second conjunct). -/
theorem logical_graph_cache_spec (cfg : PlantConfig) :
    (∀ (s : ModelState) (t1 t2 : Nat) (g1 : DiGraph String) (s1 : ModelState),
        get_logical_graph cfg s t1 = (g1, s1) →
        t2 - s1.lastCacheTime ≤ CACHE_EXPIRATION_TIME →
        get_logical_graph cfg s1 t2 = (g1, s1))
    ∧ (∀ (s : ModelState) (segId : String) (n : Nat) (st : String)
        (e : Edge) (fb : List (String × String)) (old : String),
        s.phys.edges.find? (fun e => segMatch e segId) = some e →
        e.fibers = some fb → alookup fb (toString n) = some old →
        old ≠ st → (st = "ok" ∨ st = "averiado") →
        ((update_fiber_status s segId n st).1.cacheValid = false
          ∧ (update_fiber_status s segId n st).1.cache = none
          ∧ ∀ t : Nat, (get_logical_graph cfg (update_fiber_status s segId n st).1 t).1
              = build_directed_logical_graph cfg
                  (update_fiber_status s segId n st).1.phys)) := by
  constructor
  · intro s t1 t2 g1 s1 hgl ht
    have hfields : s1.cacheValid = true ∧ s1.cache = some g1 := by
      unfold get_logical_graph at hgl
      split at hgl
      · rename_i g hsc
        split at hgl
        · rename_i hcond
          simp only [Prod.mk.injEq] at hgl
          rw [← hgl.2, ← hgl.1]
          exact ⟨(Bool.and_eq_true_iff.mp hcond).1, hsc⟩
        · simp only [Prod.mk.injEq] at hgl
          rw [← hgl.2, ← hgl.1]
          exact ⟨rfl, rfl⟩
      · simp only [Prod.mk.injEq] at hgl
        rw [← hgl.2, ← hgl.1]
        exact ⟨rfl, rfl⟩
    have hcond2 : (s1.cacheValid &&
        !(decide (t2 - s1.lastCacheTime > CACHE_EXPIRATION_TIME))) = true := by
      rw [hfields.1, decide_eq_false (Nat.not_lt.mpr ht)]
      rfl
    unfold get_logical_graph
    simp [hfields.2, hcond2]
  · intro s segId n st e fb old hf hfib hlk hne hval
    obtain ⟨es2, hch⟩ :=
      updateEdgesLoop_changed_of segId (toString n) st s.phys.edges e fb old
        hf hfib hlk hne
    have hvalid : ¬(st ≠ "ok" ∧ st ≠ "averiado") := by
      rcases hval with h | h <;> simp [h]
    unfold update_fiber_status
    rw [if_neg hvalid]
    simp only [hch]
    exact ⟨trivial, trivial, fun t => rfl⟩

/-- Witness for C7: on `stNoop`, a first build at time 0 followed by a
request at time 5 reuses the cached graph unchanged; and flipping strand 1
of the segment to averiado (an actual change) clears the cache so the next
request rebuilds. -/
theorem logical_graph_cache_spec_witness :
    (get_logical_graph cfgAB (get_logical_graph cfgAB stNoop 0).2 5
        = ((get_logical_graph cfgAB stNoop 0).1, (get_logical_graph cfgAB stNoop 0).2))
    ∧ ((update_fiber_status stNoop "SET-CT1" 1 "averiado").1.cacheValid = false
       ∧ (update_fiber_status stNoop "SET-CT1" 1 "averiado").1.cache = none
       ∧ ∀ t : Nat, (get_logical_graph cfgAB
            (update_fiber_status stNoop "SET-CT1" 1 "averiado").1 t).1
          = build_directed_logical_graph cfgAB
              (update_fiber_status stNoop "SET-CT1" 1 "averiado").1.phys) :=
  ⟨(logical_graph_cache_spec cfgAB).1 stNoop 0 5
      (get_logical_graph cfgAB stNoop 0).1 (get_logical_graph cfgAB stNoop 0).2
      rfl (by decide),
   (logical_graph_cache_spec cfgAB).2 stNoop "SET-CT1" 1 "averiado"
      ⟨"SET", "CT1", some "SET-CT1", some "C1", some [("1", "ok")]⟩
      [("1", "ok")] "ok" (by decide) rfl (by decide) (by decide) (Or.inr rfl)⟩

section WFBuild

variable {α : Type} [DecidableEq α]

theorem mem_addNodeIfAbsent_self (ns : List α) (n : α) :
    n ∈ addNodeIfAbsent ns n := by
  unfold addNodeIfAbsent
  by_cases h : n ∈ ns
  · rw [if_pos h]; exact h
  · rw [if_neg h]; simp

theorem mem_addNodeIfAbsent_of_mem {ns : List α} {x : α} (n : α)
    (h : x ∈ ns) : x ∈ addNodeIfAbsent ns n := by
  unfold addNodeIfAbsent
  by_cases hn : n ∈ ns
  · rw [if_pos hn]; exact h
  · rw [if_neg hn]; exact List.mem_append_left _ h

theorem upsertSucc_mem_cases (l : List (α × EdgeType)) (v : α) (ty : EdgeType) :
    ∀ q ∈ upsertSucc l v ty, q.1 = v ∨ q ∈ l := by
  induction l with
  | nil => intro q hq; simp [upsertSucc] at hq; rw [hq]; exact Or.inl rfl
  | cons p rest ih =>
      obtain ⟨w, t⟩ := p
      intro q hq
      unfold upsertSucc at hq
      by_cases hw : w = v
      · rw [if_pos hw] at hq
        rcases List.mem_cons.mp hq with h1 | h1
        · rw [h1]; exact Or.inl rfl
        · exact Or.inr (List.mem_cons_of_mem _ h1)
      · rw [if_neg hw] at hq
        rcases List.mem_cons.mp hq with h1 | h1
        · rw [h1]; exact Or.inr (List.mem_cons_self _ _)
        · rcases ih q h1 with h2 | h2
          · exact Or.inl h2
          · exact Or.inr (List.mem_cons_of_mem _ h2)

theorem adjInsert_mem_cases (adj : List (α × List (α × EdgeType)))
    (u v : α) (ty : EdgeType) :
    ∀ p ∈ adjInsert adj u v ty,
      p ∈ adj ∨ (p.1 = u ∧ ∀ q ∈ p.2, q.1 = v ∨ ∃ pl ∈ adj, q ∈ pl.2) := by
  induction adj with
  | nil =>
      intro p hp
      simp [adjInsert] at hp
      rw [hp]
      refine Or.inr ⟨rfl, ?_⟩
      intro q hq
      simp at hq
      rw [hq]
      exact Or.inl rfl
  | cons pw rest ih =>
      obtain ⟨w, l⟩ := pw
      intro p hp
      unfold adjInsert at hp
      by_cases hw : w = u
      · rw [if_pos hw] at hp
        rcases List.mem_cons.mp hp with h1 | h1
        · refine Or.inr ?_
          rw [h1]
          refine ⟨hw, ?_⟩
          intro q hq
          rcases upsertSucc_mem_cases l v ty q hq with h2 | h2
          · exact Or.inl h2
          · exact Or.inr ⟨(w, l), List.mem_cons_self _ _, h2⟩
        · exact Or.inl (List.mem_cons_of_mem _ h1)
      · rw [if_neg hw] at hp
        rcases List.mem_cons.mp hp with h1 | h1
        · rw [h1]; exact Or.inl (List.mem_cons_self _ _)
        · rcases ih p h1 with h2 | h2
          · exact Or.inl (List.mem_cons_of_mem _ h2)
          · refine Or.inr ⟨h2.1, ?_⟩
            intro q hq
            rcases h2.2 q hq with h3 | ⟨pl, hpl, hql⟩
            · exact Or.inl h3
            · exact Or.inr ⟨pl, List.mem_cons_of_mem _ hpl, hql⟩

theorem WFGraph_addEdge {g : DiGraph α} (hwf : WFGraph g) (u v : α)
    (ty : EdgeType) : WFGraph (addEdge g u v ty) := by
  have hu : u ∈ (addEdge g u v ty).nodes :=
    mem_addNodeIfAbsent_of_mem v (mem_addNodeIfAbsent_self g.nodes u)
  have hv : v ∈ (addEdge g u v ty).nodes :=
    mem_addNodeIfAbsent_self (addNodeIfAbsent g.nodes u) v
  have hsub : ∀ x ∈ g.nodes, x ∈ (addEdge g u v ty).nodes := by
    intro x hx
    exact mem_addNodeIfAbsent_of_mem v (mem_addNodeIfAbsent_of_mem u hx)
  constructor
  · intro p hp
    rcases adjInsert_mem_cases g.adj u v ty p hp with h1 | h1
    · exact hsub _ (hwf.1 p h1)
    · rw [h1.1]; exact hu
  · intro p hp q hq
    rcases adjInsert_mem_cases g.adj u v ty p hp with h1 | h1
    · exact hsub _ (hwf.2 p h1 q hq)
    · rcases h1.2 q hq with h2 | ⟨pl, hpl, hql⟩
      · rw [h2]; exact hv
      · exact hsub _ (hwf.2 pl hpl q hql)

/-- Every graph the builder produces is well-formed: the node-existence
hypotheses of the amended C2 and C8 theorems hold for all logical graphs
actually built from a physical graph. -/
theorem WFGraph_build (cfg : PlantConfig) (P : PhysGraph) :
    WFGraph (build_directed_logical_graph cfg P) := by
  have hstep : ∀ (es : List Edge) (DG : DiGraph String), WFGraph DG →
      WFGraph (es.foldl (fun DG e =>
        let fib := e.fibers.getD []
        let DG1 := if check_segment_path_direction fib cfg.fibrasIda
                   then addEdge DG e.u e.v EdgeType.ida else DG
        if check_segment_path_direction fib cfg.fibrasVuelta
        then addEdge DG1 e.v e.u EdgeType.vuelta else DG1) DG) := by
    intro es
    induction es with
    | nil => intro DG h; exact h
    | cons e rest ih =>
        intro DG h
        refine ih _ ?_
        have h1 : WFGraph (if check_segment_path_direction (e.fibers.getD [])
            cfg.fibrasIda then addEdge DG e.u e.v EdgeType.ida else DG) := by
          by_cases hc : check_segment_path_direction (e.fibers.getD [])
              cfg.fibrasIda = true
          · rw [if_pos hc]; exact WFGraph_addEdge h e.u e.v EdgeType.ida
          · rw [if_neg hc]; exact h
        by_cases hc2 : check_segment_path_direction (e.fibers.getD [])
            cfg.fibrasVuelta = true
        · simp only [hc2, if_true]
          exact WFGraph_addEdge h1 e.v e.u EdgeType.vuelta
        · simp only [hc2, if_false]
          exact h1
  have hpre : WFGraph (buildPreRing cfg P) := by
    unfold buildPreRing
    exact hstep P.edges _ ⟨by simp, by simp⟩
  have hring : ∀ (l : List Nat) (DG : DiGraph String), WFGraph DG →
      WFGraph (l.foldl (ringStep cfg) DG) := by
    intro l
    induction l with
    | nil => intro DG h; exact h
    | cons i rest ih =>
        intro DG h
        refine ih _ ?_
        unfold ringStep
        by_cases hc : ringCtsA cfg i = [] ∨ ringCtsB cfg i = []
        · rw [if_pos hc]; exact h
        · rw [if_neg hc]
          simp only []
          by_cases hc2 : (hasNode DG (ringLast cfg i) && hasNode DG "SET" &&
              hasNode DG (ringFirst cfg i) &&
              !has_path_limited_iterative DG (ringLast cfg i)
                (ringFirst cfg i) 30) = true
          · rw [if_pos hc2]
            exact WFGraph_addEdge h _ _ EdgeType.set_patch
          · rw [if_neg hc2]; exact h
  unfold build_directed_logical_graph add_ring_connections
  by_cases hr : cfg.ringOrder = []
  · rw [if_pos hr]; exact hpre
  · rw [if_neg hr]
    exact hring _ _ hpre

end WFBuild

end FiberModel
